import Mathlib

/-!
Verification of the snake engine in `src/app/snake.rs`.

The snake's body is run-length encoded: a head position together with a
deque of segments `{direction, length}`, ordered from tail (front) to head
(back).  Coordinates are `u16` in the source; we embed them as `Nat` and
model the panicking arithmetic (`y -= 1` at 0, `x += 1` at 65535) and the
panicking `rand::random_range` on an empty range with `Option`.
Randomness is embedded by passing an oracle pair `(o₁, o₂) : Nat × Nat`;
`rand::random_range(a..b)` becomes `a + o % (b - a)`, so the set of
possible outcomes over all oracles is exactly the half-open range.
-/

inductive Direction where
  | North
  | East
  | South
  | West
deriving DecidableEq, Repr

def Direction.opposite : Direction → Direction
  | .North => .South
  | .East => .West
  | .South => .North
  | .West => .East

structure Position where
  x : Nat
  y : Nat
deriving DecidableEq, Repr

/-- `Position::shift` from the source: one unit step, `u16` arithmetic.
`none` models the debug-mode panic on underflow/overflow. -/
def Position.shift? (p : Position) : Direction → Option Position
  | .North => if p.y = 0 then none else some ⟨p.x, p.y - 1⟩
  | .East => if p.x = 65535 then none else some ⟨p.x + 1, p.y⟩
  | .South => if p.y = 65535 then none else some ⟨p.x, p.y + 1⟩
  | .West => if p.x = 0 then none else some ⟨p.x - 1, p.y⟩

structure Rect where
  x : Nat
  y : Nat
  width : Nat
  height : Nat
deriving DecidableEq, Repr

/-- `u16::saturating_add` cap. -/
def sat16 (n : Nat) : Nat := min n 65535

def Rect.right (r : Rect) : Nat := sat16 (r.x + r.width)

def Rect.bottom (r : Rect) : Nat := sat16 (r.y + r.height)

/-- ratatui `Rect::contains`. -/
def Rect.contains (r : Rect) (p : Position) : Bool :=
  decide (r.x ≤ p.x) && decide (p.x < r.right) && decide (r.y ≤ p.y) &&
    decide (p.y < r.bottom)

/-- ratatui `Rect::inner` with a margin of 1 on each side. -/
def Rect.inner1 (r : Rect) : Rect :=
  if r.width < 2 ∨ r.height < 2 then ⟨0, 0, 0, 0⟩
  else ⟨sat16 (r.x + 1), sat16 (r.y + 1), r.width - 2, r.height - 2⟩

structure Segment where
  direction : Direction
  length : Nat
deriving DecidableEq, Repr

structure Snake where
  headPos : Position
  segments : List Segment
  foodPos : Position
  area : Rect
  foodColor : Nat
  snakeColor : Nat
deriving DecidableEq, Repr

/-- `Position::random_range`: `x ∈ [area.x, area.width)`, `y ∈ [area.y,
area.height)` exactly as written in the source (the range end is the
`width`/`height` field, not `x + width`).  `none` models the panic of
`rand::random_range` on an empty range. -/
def randomRange? (area : Rect) (o : Nat × Nat) : Option Position :=
  if area.x < area.width ∧ area.y < area.height then
    some ⟨area.x + o.1 % (area.width - area.x), area.y + o.2 % (area.height - area.y)⟩
  else none

/-- `Snake::head_direction`; `none` models the assertion failure on an
empty segment deque. -/
def headDirection? (s : Snake) : Option Direction :=
  s.segments.getLast?.map Segment.direction

/-- The pure core of `Snake::legal_direction`: the eight accepting match
arms, every other pair keeps the current direction. -/
def legalTurn (currDirection direction : Direction) : Direction :=
  match currDirection, direction with
  | .North, .East => direction
  | .North, .West => direction
  | .East, .North => direction
  | .East, .South => direction
  | .South, .East => direction
  | .South, .West => direction
  | .West, .North => direction
  | .West, .South => direction
  | _, _ => currDirection

/-- `Snake::shift_head`: move the head one unit, then either extend the
back segment (same direction) or push a fresh length-1 segment. -/
def shiftHead? (s : Snake) (direction : Direction) : Option Snake :=
  match s.headPos.shift? direction, s.segments.getLast? with
  | some p, some lastSeg =>
    if lastSeg.direction ≠ direction then
      some { s with headPos := p, segments := s.segments ++ [⟨direction, 1⟩] }
    else
      some { s with headPos := p,
                    segments := s.segments.dropLast ++
                      [⟨lastSeg.direction, lastSeg.length + 1⟩] }
  | _, _ => none

/-- `Snake::shift_tail`: decrement the front segment, pop it when it
reaches 0.  `none` models the `unwrap` on an empty deque and the `usize`
underflow of `length -= 1` at 0. -/
def shiftTail? (s : Snake) : Option Snake :=
  match s.segments with
  | [] => none
  | firstSeg :: rest =>
    if firstSeg.length = 0 then none
    else if firstSeg.length - 1 = 0 then some { s with segments := rest }
    else some { s with segments := ⟨firstSeg.direction, firstSeg.length - 1⟩ :: rest }

/-- `Snake::move_snake`. -/
def moveSnake? (s : Snake) (direction : Direction) (o : Nat × Nat) : Option Snake :=
  match shiftHead? s direction with
  | none => none
  | some s1 =>
    if s1.headPos = s1.foodPos then
      match randomRange? s1.area.inner1 o with
      | none => none
      | some fp => some { s1 with foodPos := fp }
    else shiftTail? s1

/-- `Snake::update_snake_position`. -/
def updateSnakePosition? (s : Snake) (input : Direction) (o : Nat × Nat) : Option Snake :=
  match headDirection? s with
  | none => none
  | some curr => moveSnake? s (legalTurn curr input) o

/-- `Snake::touches_border`. -/
def touchesBorder (s : Snake) : Bool :=
  !(s.area.inner1.contains s.headPos)

/-- The loop body of `Snake::has_self_intersection`: segments are
processed head-first (`iter().rev()`), `h`/`v` are the running
horizontal/vertical counters. -/
def selfLoop : List Segment → Int → Int → Bool
  | [], _, _ => false
  | seg :: rest, h, v =>
    match seg.direction with
    | .North =>
      let v2 := v + (seg.length : Int)
      if h = 0 ∧ (v2 = 0 ∨ (v2 < 0 ∧ 0 < v) ∨ (0 < v2 ∧ v < 0)) then true
      else selfLoop rest h v2
    | .East =>
      let h2 := h + (seg.length : Int)
      if v = 0 ∧ (h2 = 0 ∨ (h2 < 0 ∧ 0 < h) ∨ (0 < h2 ∧ h < 0)) then true
      else selfLoop rest h2 v
    | .South =>
      let v2 := v - (seg.length : Int)
      if h = 0 ∧ (v2 = 0 ∨ (v2 < 0 ∧ 0 < v) ∨ (0 < v2 ∧ v < 0)) then true
      else selfLoop rest h v2
    | .West =>
      let h2 := h - (seg.length : Int)
      if v = 0 ∧ (h2 = 0 ∨ (h2 < 0 ∧ 0 < h) ∨ (0 < h2 ∧ h < 0)) then true
      else selfLoop rest h2 v

/-- `Snake::has_self_intersection`. -/
def hasSelfIntersection (s : Snake) : Bool :=
  selfLoop s.segments.reverse 0 0

/-- Per-axis increments of the counters in `has_self_intersection`:
North/East add, South/West subtract. -/
def cDelta : Direction → Int × Int
  | .North => (0, 1)
  | .East => (1, 0)
  | .South => (0, -1)
  | .West => (-1, 0)

/-- Screen-coordinate delta of one backward step along a segment, i.e.
the delta of `direction.opposite()` used by the renderer's walk. -/
def oppDelta : Direction → Int × Int
  | .North => (0, 1)
  | .East => (-1, 0)
  | .South => (0, -1)
  | .West => (1, 0)

def ptAdd (c d : Int × Int) (n : Int) : Int × Int :=
  (c.1 + d.1 * n, c.2 + d.2 * n)

/-- The `len` points `c, c+d, …, c+(len-1)d`: the cells a segment paints
in the renderer's backward walk, starting at the segment boundary. -/
def runCells (c d : Int × Int) (len : Nat) : List (Int × Int) :=
  (List.range len).map (fun (j : Nat) => ptAdd c d (j : Int))

/-- The `len` points `c+d, …, c+len·d`: the positions reached after each
unit step of the walk over one segment. -/
def runSteps (c d : Int × Int) (len : Nat) : List (Int × Int) :=
  (List.range len).map (fun (j : Nat) => ptAdd c d ((j : Int) + 1))

/-- Body cells of a head-first segment list, starting the backward walk
at `c` — the exact walk of the `Widget::render` implementation. -/
def walkCells (dl : Direction → Int × Int) : Int × Int → List Segment → List (Int × Int)
  | _, [] => []
  | c, seg :: rest =>
    runCells c (dl seg.direction) seg.length ++
      walkCells dl (ptAdd c (dl seg.direction) (seg.length : Int)) rest

/-- Positions reached after each unit step of the walk (one position per
occupied cell, ending one cell beyond the tail). -/
def walkSteps (dl : Direction → Int × Int) : Int × Int → List Segment → List (Int × Int)
  | _, [] => []
  | c, seg :: rest =>
    runSteps c (dl seg.direction) seg.length ++
      walkSteps dl (ptAdd c (dl seg.direction) (seg.length : Int)) rest

/-- Endpoint of the walk. -/
def walkEnd (dl : Direction → Int × Int) : Int × Int → List Segment → Int × Int
  | c, [] => c
  | c, seg :: rest => walkEnd dl (ptAdd c (dl seg.direction) (seg.length : Int)) rest

/-- The explicit cell list of a snake (head first), derived exactly as
the renderer paints it. -/
def posInt (p : Position) : Int × Int :=
  ((p.x : Int), (p.y : Int))

def cells (s : Snake) : List (Int × Int) :=
  walkCells oppDelta (posInt s.headPos) s.segments.reverse

/-- Modelled from the spec's words for the refinement claim: the
explicit-cell self-intersection scan — true iff the head position equals
some *other* position in the body cell sequence (cells taken relative to
the head). -/
def specExplicitSelfIntersect (s : Snake) : Bool :=
  decide (((0 : Int), (0 : Int)) ∈ (walkCells oppDelta (0, 0) s.segments.reverse).tail)

def sumLen (segs : List Segment) : Nat :=
  (segs.map Segment.length).sum

/-- C2: the effective heading equals the requested heading exactly when
the request is perpendicular to the current heading (neither equal to it
nor to its opposite); otherwise the current heading is retained, and the
filter is total (no error on a rejected request). -/
theorem legalTurn_perpendicular_characterization :
    ∀ currDir req : Direction,
      legalTurn currDir req =
        (if req = currDir ∨ req = currDir.opposite then currDir else req) := by
  intro c r
  cases c <;> cases r <;> rfl

/-- A state used only to probe `touches_border`: the predicate reads the
head position and the area alone. -/
def borderProbe (a : Rect) (p : Position) : Snake :=
  ⟨p, [], ⟨0, 0⟩, a, 0, 0⟩

theorem contains_inner_origin (w h hx hy : Nat) (hw : w ≤ 65535) (hh : h ≤ 65535) :
    ((Rect.inner1 ⟨0, 0, w, h⟩).contains ⟨hx, hy⟩ = true) ↔
      (1 ≤ hx ∧ hx ≤ w - 2 ∧ 1 ≤ hy ∧ hy ≤ h - 2) := by
  unfold Rect.inner1 Rect.contains Rect.right Rect.bottom sat16
  by_cases hc : w < 2 ∨ h < 2
  · rw [if_pos hc]
    simp only [Bool.and_eq_true, decide_eq_true_eq]
    omega
  · rw [if_neg hc]
    simp only [Bool.and_eq_true, decide_eq_true_eq]
    omega

/-- Modelled from the spec: membership in the interior rectangle, "the
area shrunk by 1 cell on every side" — columns `x+1 … x+width-2` and
rows `y+1 … y+height-2`, written additively to avoid truncated
subtraction. -/
def inShrunkInterior (r : Rect) (p : Position) : Prop :=
  r.x + 1 ≤ p.x ∧ p.x + 2 ≤ r.x + r.width ∧
    r.y + 1 ≤ p.y ∧ p.y + 2 ≤ r.y + r.height

/-- C6 (counterexample): for the u16 area `(2,2,65535,65535)` the head
`(65535,5)` lies inside the area shrunk by 1 cell on every side, yet
`touches_border` reports true: ratatui's `Rect::right` saturates
`3 + 65533` to `65535`, cutting the interior short, so the claimed
equivalence fails for this area rectangle. -/
theorem touchesBorder_saturating_disagree :
    touchesBorder (borderProbe ⟨2, 2, 65535, 65535⟩ ⟨65535, 5⟩) = true ∧
      inShrunkInterior ⟨2, 2, 65535, 65535⟩ ⟨65535, 5⟩ := by
  constructor
  · decide
  · show 2 + 1 ≤ 65535 ∧ 65535 + 2 ≤ 2 + 65535 ∧ 2 + 1 ≤ 5 ∧ 5 + 2 ≤ 2 + 65535
    decide

theorem contains_inner1_iff_inShrunk (a : Rect) (p : Position)
    (hw : a.x + a.width ≤ 65536) (hh : a.y + a.height ≤ 65536) :
    (a.inner1.contains p = true) ↔ inShrunkInterior a p := by
  obtain ⟨ax, ay, aw, ah⟩ := a
  obtain ⟨px, py⟩ := p
  dsimp only at hw hh
  by_cases hc : aw < 2 ∨ ah < 2
  · have hi : Rect.inner1 ⟨ax, ay, aw, ah⟩ = ⟨0, 0, 0, 0⟩ := by
      rw [Rect.inner1, if_pos (show aw < 2 ∨ ah < 2 from hc)]
    rw [hi]
    simp only [Rect.contains, Rect.right, Rect.bottom, sat16, inShrunkInterior,
      Bool.and_eq_true, decide_eq_true_eq]
    constructor <;> intro h <;> omega
  · have hi : Rect.inner1 ⟨ax, ay, aw, ah⟩ = ⟨ax + 1, ay + 1, aw - 2, ah - 2⟩ := by
      rw [Rect.inner1, if_neg (show ¬(aw < 2 ∨ ah < 2) from hc)]
      dsimp only
      simp only [sat16]
      congr 1 <;> omega
    rw [hi]
    simp only [Rect.contains, Rect.right, Rect.bottom, sat16, inShrunkInterior,
      Bool.and_eq_true, decide_eq_true_eq]
    constructor <;> intro h <;> omega

/-- C6 (amended): `touches_border` is true iff the head lies outside
the area shrunk by 1 cell on every side, for every area rectangle whose
edges do not overflow the u16 coordinate space (`x + width ≤ 65536` and
`y + height ≤ 65536`; in larger rects ratatui's saturating edge
arithmetic cuts the interior short, see the counterexample); and for
origin-anchored areas the concrete border rows/columns `x = 0`,
`x = w-1`, `y = 0`, `y = h-1` report true while heads strictly inside
`(1,1)-(w-2,h-2)` report false. -/
theorem touchesBorder_outside_shrunk_interior :
    (∀ (a : Rect) (p : Position), a.x + a.width ≤ 65536 → a.y + a.height ≤ 65536 →
      (touchesBorder (borderProbe a p) = true ↔ ¬ inShrunkInterior a p)) ∧
    (∀ w h hx hy : Nat, w ≤ 65535 → h ≤ 65535 →
      touchesBorder (borderProbe ⟨0, 0, w, h⟩ ⟨0, hy⟩) = true ∧
      touchesBorder (borderProbe ⟨0, 0, w, h⟩ ⟨w - 1, hy⟩) = true ∧
      touchesBorder (borderProbe ⟨0, 0, w, h⟩ ⟨hx, 0⟩) = true ∧
      touchesBorder (borderProbe ⟨0, 0, w, h⟩ ⟨hx, h - 1⟩) = true ∧
      (1 ≤ hx → hx ≤ w - 2 → 1 ≤ hy → hy ≤ h - 2 →
        touchesBorder (borderProbe ⟨0, 0, w, h⟩ ⟨hx, hy⟩) = false)) := by
  have hgen : ∀ (a : Rect) (p : Position),
      a.x + a.width ≤ 65536 → a.y + a.height ≤ 65536 →
      (touchesBorder (borderProbe a p) = true ↔ ¬ inShrunkInterior a p) := by
    intro a p hw hh
    rw [touchesBorder, Bool.not_eq_true', Bool.eq_false_iff, ne_eq]
    simp only [borderProbe]
    rw [contains_inner1_iff_inShrunk a p hw hh]
  refine ⟨hgen, ?_⟩
  intro w h hx hy hw hh
  have hcw : (0 : Nat) + w ≤ 65536 := by omega
  have hch : (0 : Nat) + h ≤ 65536 := by omega
  refine ⟨?_, ?_, ?_, ?_, ?_⟩
  · rw [hgen ⟨0, 0, w, h⟩ ⟨0, hy⟩ hcw hch]
    show ¬(0 + 1 ≤ 0 ∧ 0 + 2 ≤ 0 + w ∧ 0 + 1 ≤ hy ∧ hy + 2 ≤ 0 + h)
    omega
  · rw [hgen ⟨0, 0, w, h⟩ ⟨w - 1, hy⟩ hcw hch]
    show ¬(0 + 1 ≤ w - 1 ∧ (w - 1) + 2 ≤ 0 + w ∧ 0 + 1 ≤ hy ∧ hy + 2 ≤ 0 + h)
    omega
  · rw [hgen ⟨0, 0, w, h⟩ ⟨hx, 0⟩ hcw hch]
    show ¬(0 + 1 ≤ hx ∧ hx + 2 ≤ 0 + w ∧ 0 + 1 ≤ 0 ∧ 0 + 2 ≤ 0 + h)
    omega
  · rw [hgen ⟨0, 0, w, h⟩ ⟨hx, h - 1⟩ hcw hch]
    show ¬(0 + 1 ≤ hx ∧ hx + 2 ≤ 0 + w ∧ 0 + 1 ≤ h - 1 ∧ (h - 1) + 2 ≤ 0 + h)
    omega
  · intro h1 h2 h3 h4
    rw [← Bool.not_eq_true, hgen ⟨0, 0, w, h⟩ ⟨hx, hy⟩ hcw hch, not_not]
    show 0 + 1 ≤ hx ∧ hx + 2 ≤ 0 + w ∧ 0 + 1 ≤ hy ∧ hy + 2 ≤ 0 + h
    omega

/-- Witness for C6 (amended) at a concrete area and heads. -/
theorem touchesBorder_outside_shrunk_interior_witness :
    (touchesBorder (borderProbe ⟨0, 0, 10, 10⟩ ⟨0, 5⟩) = true ↔
      ¬ inShrunkInterior ⟨0, 0, 10, 10⟩ ⟨0, 5⟩) ∧
      touchesBorder (borderProbe ⟨0, 0, 10, 10⟩ ⟨5, 5⟩) = false :=
  ⟨touchesBorder_outside_shrunk_interior.1 ⟨0, 0, 10, 10⟩ ⟨0, 5⟩ (by decide) (by decide),
    (touchesBorder_outside_shrunk_interior.2 10 10 5 5 (by decide) (by decide)).2.2.2.2
      (by decide) (by decide) (by decide) (by decide)⟩

/-- A state about to eat: head `(2,2)` moving North onto the food at
`(2,1)`, body cells `(2,2),(2,3)`. -/
def eatState : Snake :=
  ⟨⟨2, 2⟩, [⟨.North, 2⟩], ⟨2, 1⟩, ⟨0, 0, 10, 10⟩, 0, 0⟩

/-- The state after that tick with food oracle `(1,1)`. -/
def eatStateAfter : Snake :=
  ⟨⟨2, 1⟩, [⟨.North, 3⟩], ⟨2, 2⟩, ⟨0, 0, 10, 10⟩, 0, 0⟩

/-- C4 (bug evidence): on the 10×10 origin area the interior is
`(1,1)-(8,8)`, yet food relocation samples `x, y ∈ [1, 8)` and ignores
the body: with oracle `(1,1)` the new food `(2,2)` lands on a body cell
of the resulting snake, and the unoccupied interior cell `(8,8)` can
never be selected by any oracle. -/
theorem foodRelocation_violates_contract :
    updateSnakePosition? eatState .North (1, 1) = some eatStateAfter ∧
      eatStateAfter.foodPos = ⟨2, 2⟩ ∧
      ((2 : Int), (2 : Int)) ∈ cells eatStateAfter ∧
      Rect.contains (Rect.inner1 ⟨0, 0, 10, 10⟩) ⟨8, 8⟩ = true ∧
      ∀ o : Nat × Nat, randomRange? (Rect.inner1 ⟨0, 0, 10, 10⟩) o ≠ some ⟨8, 8⟩ := by
  refine ⟨by decide, by decide, by decide, by decide, ?_⟩
  intro o hEq
  rw [show Rect.inner1 ⟨0, 0, 10, 10⟩ = ⟨1, 1, 8, 8⟩ by decide] at hEq
  simp only [randomRange?, if_pos (by decide : (1 : Nat) < 8 ∧ (1 : Nat) < 8),
    Option.some.injEq, Position.mk.injEq] at hEq
  omega

/-- A legal in-interior state: head `(5,1)`, travelling North. -/
def nearBorderState : Snake :=
  ⟨⟨5, 1⟩, [⟨.North, 1⟩], ⟨3, 3⟩, ⟨0, 0, 20, 20⟩, 0, 0⟩

/-- The state one North tick later: head `(5,0)`, on the border. -/
def onBorderState : Snake :=
  ⟨⟨5, 0⟩, [⟨.North, 1⟩], ⟨3, 3⟩, ⟨0, 0, 20, 20⟩, 0, 0⟩

/-- C7 (counterexample): from a legal interior state a single tick moves
the head onto the border row `y = 0` (a game-over state, but a reachable
one); one further tick with effective heading North underflows the `u16`
subtraction in `Position::shift` and the update does not complete. -/
theorem update_not_total :
    updateSnakePosition? nearBorderState .North (0, 0) = some onBorderState ∧
      touchesBorder onBorderState = true ∧
      updateSnakePosition? onBorderState .North (0, 0) = none := by
  decide

/-- Successful `shift_head` characterized: the head takes the shifted
position and the back of the deque is either extended or a fresh
length-1 segment. -/
theorem shiftHead?_char (s : Snake) (d : Direction) (p : Position) (lastSeg : Segment)
    (hp : s.headPos.shift? d = some p) (hlast : s.segments.getLast? = some lastSeg) :
    ∃ s1, shiftHead? s d = some s1 ∧ s1.headPos = p ∧ s1.foodPos = s.foodPos ∧
      s1.area = s.area ∧
      ((lastSeg.direction ≠ d ∧ s1.segments = s.segments ++ [⟨d, 1⟩]) ∨
       (lastSeg.direction = d ∧
         s1.segments = s.segments.dropLast ++ [⟨d, lastSeg.length + 1⟩])) := by
  by_cases hdir : lastSeg.direction ≠ d
  · exact ⟨{ s with headPos := p, segments := s.segments ++ [⟨d, 1⟩] },
      by simp only [shiftHead?, hp, hlast]; rw [if_pos hdir], rfl, rfl, rfl,
      Or.inl ⟨hdir, rfl⟩⟩
  · have hdir' : lastSeg.direction = d := not_not.mp hdir
    exact ⟨{ s with headPos := p, segments := s.segments.dropLast ++ [⟨lastSeg.direction, lastSeg.length + 1⟩] },
      by simp only [shiftHead?, hp, hlast]; rw [if_neg hdir], rfl, rfl, rfl,
      Or.inr ⟨hdir', by rw [hdir']⟩⟩

/-- `shift_head` succeeds only through the two branches above. -/
theorem shiftHead?_inv (s : Snake) (d : Direction) (s1 : Snake)
    (h : shiftHead? s d = some s1) :
    ∃ p lastSeg, s.headPos.shift? d = some p ∧ s.segments.getLast? = some lastSeg ∧
      s1.headPos = p ∧ s1.foodPos = s.foodPos ∧ s1.area = s.area ∧
      ((lastSeg.direction ≠ d ∧ s1.segments = s.segments ++ [⟨d, 1⟩]) ∨
       (lastSeg.direction = d ∧
         s1.segments = s.segments.dropLast ++ [⟨d, lastSeg.length + 1⟩])) := by
  cases hp : s.headPos.shift? d with
  | none => simp [shiftHead?, hp] at h
  | some p =>
    cases hlast : s.segments.getLast? with
    | none => simp [shiftHead?, hp, hlast] at h
    | some lastSeg =>
      obtain ⟨s1', hs1', h1, h2, h3, h4⟩ := shiftHead?_char s d p lastSeg hp hlast
      rw [h] at hs1'
      injection hs1' with hEq
      subst hEq
      exact ⟨p, lastSeg, rfl, rfl, h1, h2, h3, h4⟩

/-- Successful `shift_tail` characterized: the front segment is popped
(length 1) or decremented (length ≥ 2). -/
theorem shiftTail?_char (s : Snake) (firstSeg : Segment) (rest : List Segment)
    (hsegs : s.segments = firstSeg :: rest) (hfl : 1 ≤ firstSeg.length) :
    ∃ s2, shiftTail? s = some s2 ∧ s2.headPos = s.headPos ∧ s2.foodPos = s.foodPos ∧
      s2.area = s.area ∧
      ((firstSeg.length = 1 ∧ s2.segments = rest) ∨
       (2 ≤ firstSeg.length ∧
         s2.segments = ⟨firstSeg.direction, firstSeg.length - 1⟩ :: rest)) := by
  by_cases h1 : firstSeg.length = 1
  · exact ⟨{ s with segments := rest },
      by simp only [shiftTail?, hsegs]; rw [if_neg (by omega), if_pos (by omega)],
      rfl, rfl, rfl, Or.inl ⟨h1, rfl⟩⟩
  · exact ⟨{ s with segments := ⟨firstSeg.direction, firstSeg.length - 1⟩ :: rest },
      by simp only [shiftTail?, hsegs]; rw [if_neg (by omega), if_neg (by omega)],
      rfl, rfl, rfl, Or.inr ⟨by omega, rfl⟩⟩

/-- `shift_tail` succeeds only through the two branches above. -/
theorem shiftTail?_inv (s : Snake) (s2 : Snake) (h : shiftTail? s = some s2) :
    ∃ firstSeg rest, s.segments = firstSeg :: rest ∧ 1 ≤ firstSeg.length ∧
      s2.headPos = s.headPos ∧ s2.foodPos = s.foodPos ∧ s2.area = s.area ∧
      ((firstSeg.length = 1 ∧ s2.segments = rest) ∨
       (2 ≤ firstSeg.length ∧
         s2.segments = ⟨firstSeg.direction, firstSeg.length - 1⟩ :: rest)) := by
  cases hsegs : s.segments with
  | nil => simp [shiftTail?, hsegs] at h
  | cons firstSeg rest =>
    have hfl : 1 ≤ firstSeg.length := by
      by_contra hc
      have h0 : firstSeg.length = 0 := by omega
      simp [shiftTail?, hsegs, h0] at h
    obtain ⟨s2', hs2', h1, h2, h3, h4⟩ := shiftTail?_char s firstSeg rest hsegs hfl
    rw [h] at hs2'
    injection hs2' with hEq
    subst hEq
    exact ⟨firstSeg, rest, rfl, hfl, h1, h2, h3, h4⟩

/-- A successful `move_snake` decomposes into a successful `shift_head`
followed by either the food branch or the tail shift. -/
theorem moveSnake?_inv (s : Snake) (d : Direction) (o : Nat × Nat) (s' : Snake)
    (h : moveSnake? s d o = some s') :
    ∃ s1, shiftHead? s d = some s1 ∧
      ((s1.headPos = s1.foodPos ∧ ∃ fp, randomRange? s1.area.inner1 o = some fp ∧
          s' = { s1 with foodPos := fp }) ∨
       (s1.headPos ≠ s1.foodPos ∧ shiftTail? s1 = some s')) := by
  cases hsh : shiftHead? s d with
  | none => simp [moveSnake?, hsh] at h
  | some s1 =>
    refine ⟨s1, rfl, ?_⟩
    simp only [moveSnake?, hsh] at h
    by_cases heat : s1.headPos = s1.foodPos
    · rw [if_pos heat] at h
      cases hr : randomRange? s1.area.inner1 o with
      | none => rw [hr] at h; exact absurd h (by simp)
      | some fp =>
        rw [hr] at h
        exact Or.inl ⟨heat, fp, rfl, (Option.some.injEq .. ▸ h).symm⟩
    · rw [if_neg heat] at h
      exact Or.inr ⟨heat, h⟩

/-- A successful update decomposes into the head direction read and the
move with the filtered heading. -/
theorem updateSnakePosition?_inv (s : Snake) (input : Direction) (o : Nat × Nat)
    (s' : Snake) (h : updateSnakePosition? s input o = some s') :
    ∃ curr, headDirection? s = some curr ∧
      moveSnake? s (legalTurn curr input) o = some s' := by
  cases hhd : headDirection? s with
  | none => simp [updateSnakePosition?, hhd] at h
  | some curr =>
    exact ⟨curr, rfl, by simpa only [updateSnakePosition?, hhd] using h⟩

theorem randomRange?_inner_origin_some (w h : Nat) (o : Nat × Nat)
    (hw1 : 4 ≤ w) (hw2 : w ≤ 65535) (hh1 : 4 ≤ h) (hh2 : h ≤ 65535) :
    ∃ fp, randomRange? (Rect.inner1 ⟨0, 0, w, h⟩) o = some fp := by
  have hinner : Rect.inner1 ⟨0, 0, w, h⟩ = ⟨1, 1, w - 2, h - 2⟩ := by
    simp only [Rect.inner1, sat16]
    rw [if_neg (by omega)]
    norm_num
  rw [hinner, randomRange?,
    if_pos (show (1 : Nat) < w - 2 ∧ (1 : Nat) < h - 2 by omega)]
  exact ⟨_, rfl⟩

/-- C7 (amended): the per-tick update always succeeds for states whose
head lies inside the interior of an origin-anchored area of width and
height between 4 and 65535 (the only states the driver ticks: it stops
at game over) with a non-empty segment list of positive lengths. -/
theorem update_total_in_interior :
    ∀ (s : Snake) (input : Direction) (o : Nat × Nat) (w h : Nat),
      s.area = ⟨0, 0, w, h⟩ → 4 ≤ w → w ≤ 65535 → 4 ≤ h → h ≤ 65535 →
      s.segments ≠ [] → (∀ t ∈ s.segments, 1 ≤ t.length) →
      s.area.inner1.contains s.headPos = true →
      ∃ s', updateSnakePosition? s input o = some s' := by
  intro s input o w h harea hw1 hw2 hh1 hh2 hne hlen hin
  obtain ⟨lastSeg, hlast⟩ := Option.isSome_iff_exists.mp
    (List.getLast?_isSome.mpr hne)
  have hhd : headDirection? s = some lastSeg.direction := by
    rw [headDirection?, hlast, Option.map_some']
  rw [harea] at hin
  rw [contains_inner_origin w h s.headPos.x s.headPos.y hw2 hh2] at hin
  obtain ⟨hx1, hx2, hy1, hy2⟩ := hin
  have hshift : ∀ d : Direction, ∃ p, s.headPos.shift? d = some p := by
    intro d
    cases d <;> simp only [Position.shift?] <;> rw [if_neg (by omega)] <;>
      exact ⟨_, rfl⟩
  obtain ⟨p, hp⟩ := hshift (legalTurn lastSeg.direction input)
  obtain ⟨s1, hsh, hh1', hh2', hh3', hbr⟩ :=
    shiftHead?_char s (legalTurn lastSeg.direction input) p lastSeg hp hlast
  have hupd : updateSnakePosition? s input o =
      moveSnake? s (legalTurn lastSeg.direction input) o := by
    simp only [updateSnakePosition?, hhd]
  rw [hupd]
  by_cases heat : s1.headPos = s1.foodPos
  · obtain ⟨fp, hfp⟩ := randomRange?_inner_origin_some w h o hw1 hw2 hh1 hh2
    refine ⟨{ s1 with foodPos := fp }, ?_⟩
    simp only [moveSnake?, hsh, if_pos heat, hh3', harea, hfp]
  · -- non-eating: shift_tail succeeds since the first segment is non-trivial
    have hs1ne : s1.segments ≠ [] := by
      rcases hbr with ⟨_, hseg⟩ | ⟨_, hseg⟩ <;> rw [hseg] <;>
        exact (by simp : _ ++ [_] ≠ ([] : List Segment))
    have hs1len : ∀ t ∈ s1.segments, 1 ≤ t.length := by
      intro t ht
      rcases hbr with ⟨_, hseg⟩ | ⟨_, hseg⟩ <;> rw [hseg] at ht <;>
        rcases List.mem_append.mp ht with hm | hm
      · exact hlen t hm
      · simp only [List.mem_singleton] at hm; rw [hm]
      · exact hlen t ((List.dropLast_sublist s.segments).subset hm)
      · simp only [List.mem_singleton] at hm; rw [hm]
        exact Nat.le_add_left 1 _
    rcases hsegs1 : s1.segments with _ | ⟨firstSeg, rest⟩
    · exact absurd hsegs1 hs1ne
    · have hfl : 1 ≤ firstSeg.length :=
        hs1len firstSeg (by rw [hsegs1]; exact List.mem_cons_self _ _)
      obtain ⟨s2, hst, _, _, _, _⟩ := shiftTail?_char s1 firstSeg rest hsegs1 hfl
      refine ⟨s2, ?_⟩
      simp only [moveSnake?, hsh, if_neg heat, hst]

/-- Witness for C7 (amended) at a concrete interior state. -/
theorem update_total_in_interior_witness :
    ∃ s', updateSnakePosition? nearBorderState .East (0, 0) = some s' :=
  update_total_in_interior nearBorderState .East (0, 0) 20 20 rfl (by decide)
    (by decide) (by decide) (by decide) (by decide)
    (by intro t ht; simp only [nearBorderState] at ht; simp at ht; rw [ht])
    (by decide)

/-- C8 (counterexample): reading the scenario's cell list
`[(1,2),…,(1,7)]` tail-to-head as stated puts the head at `(1,7)`, and
no single-unit shift of `(1,7)` — in any heading — reaches the claimed
new head `(1,1)`. -/
theorem scenario_head_shift_mismatch :
    Position.shift? ⟨1, 7⟩ .North ≠ some ⟨1, 1⟩ ∧
      Position.shift? ⟨1, 7⟩ .East ≠ some ⟨1, 1⟩ ∧
      Position.shift? ⟨1, 7⟩ .South ≠ some ⟨1, 1⟩ ∧
      Position.shift? ⟨1, 7⟩ .West ≠ some ⟨1, 1⟩ := by
  decide

/-- The code state realizing the scenario's column of cells
`(1,2),…,(1,7)` with the head at `(1,2)`: one segment North of length 6
(the snake travelled North, so its heading is North, not East). -/
def scenarioState : Snake :=
  ⟨⟨1, 2⟩, [⟨.North, 6⟩], ⟨3, 2⟩, ⟨0, 0, 12, 12⟩, 0, 0⟩

/-- The state after one tick with requested direction North. -/
def scenarioStateAfter : Snake :=
  ⟨⟨1, 1⟩, [⟨.North, 6⟩], ⟨3, 2⟩, ⟨0, 0, 12, 12⟩, 0, 0⟩

/-- C8 (amended): on the code state whose cells are the column
`(1,2)` (head) through `(1,7)` (tail) inside an area with interior
`(1,1)-(10,10)` and food at `(3,2)`, the heading is North (East is not
representable for this body); a tick with requested North keeps heading
North (the request equals the current heading, so it is rejected, with
the same effect), the new head is `(1,1)`, and since `(1,1)` is not the
food the tail cell `(1,7)` is removed: the resulting cells are
`(1,1),…,(1,6)` and the length stays 6. -/
theorem scenario_tick :
    headDirection? scenarioState = some .North ∧
      legalTurn .North .North = .North ∧
      cells scenarioState =
        [(1, 2), (1, 3), (1, 4), (1, 5), (1, 6), (1, 7)] ∧
      updateSnakePosition? scenarioState .North (0, 0) = some scenarioStateAfter ∧
      cells scenarioStateAfter =
        [(1, 1), (1, 2), (1, 3), (1, 4), (1, 5), (1, 6)] ∧
      sumLen scenarioStateAfter.segments = 6 ∧
      scenarioStateAfter.foodPos = ⟨3, 2⟩ := by
  decide

theorem mem_runSteps_iff (c d : Int × Int) (L : Nat) (q : Int × Int) :
    q ∈ runSteps c d L ↔ ∃ j : Nat, j < L ∧ ptAdd c d ((j : Int) + 1) = q := by
  rw [runSteps]
  constructor
  · intro hq
    obtain ⟨j, hj, hfq⟩ := List.mem_map.mp hq
    exact ⟨j, List.mem_range.mp hj, hfq⟩
  · rintro ⟨j, hj, hq⟩
    exact List.mem_map.mpr ⟨j, List.mem_range.mpr hj, hq⟩

/-- Completeness of the counter loop: whenever the backward walk from
the head passes through the head's position (counter origin), the loop
reports an intersection. -/
theorem selfLoop_complete :
    ∀ (segs : List Segment) (hc vc : Int),
      ((0, 0) : Int × Int) ∈ walkSteps cDelta (hc, vc) segs →
      selfLoop segs hc vc = true := by
  intro segs
  induction segs with
  | nil => intro hc vc hm; simp [walkSteps] at hm
  | cons seg rest ih =>
    intro hc vc hm
    obtain ⟨d, L⟩ := seg
    simp only [walkSteps] at hm
    rcases List.mem_append.mp hm with hrun | hrest <;> cases d
    · rw [mem_runSteps_iff] at hrun
      obtain ⟨j, hjL, hq⟩ := hrun
      simp only [cDelta, ptAdd, Prod.mk.injEq] at hq
      obtain ⟨h1, h2⟩ := hq
      simp only [selfLoop]
      split
      · rfl
      · next hneg => exact absurd ⟨by omega, by omega⟩ hneg
    · rw [mem_runSteps_iff] at hrun
      obtain ⟨j, hjL, hq⟩ := hrun
      simp only [cDelta, ptAdd, Prod.mk.injEq] at hq
      obtain ⟨h1, h2⟩ := hq
      simp only [selfLoop]
      split
      · rfl
      · next hneg => exact absurd ⟨by omega, by omega⟩ hneg
    · rw [mem_runSteps_iff] at hrun
      obtain ⟨j, hjL, hq⟩ := hrun
      simp only [cDelta, ptAdd, Prod.mk.injEq] at hq
      obtain ⟨h1, h2⟩ := hq
      simp only [selfLoop]
      split
      · rfl
      · next hneg => exact absurd ⟨by omega, by omega⟩ hneg
    · rw [mem_runSteps_iff] at hrun
      obtain ⟨j, hjL, hq⟩ := hrun
      simp only [cDelta, ptAdd, Prod.mk.injEq] at hq
      obtain ⟨h1, h2⟩ := hq
      simp only [selfLoop]
      split
      · rfl
      · next hneg => exact absurd ⟨by omega, by omega⟩ hneg
    · simp only [selfLoop]
      split
      · rfl
      · refine ih hc (vc + (L : Int)) ?_
        have hpt : ptAdd (hc, vc) (cDelta .North) (L : Int) = (hc, vc + (L : Int)) := by
          simp only [cDelta, ptAdd, Prod.mk.injEq]
          exact ⟨by omega, by omega⟩
        rw [hpt] at hrest
        exact hrest
    · simp only [selfLoop]
      split
      · rfl
      · refine ih (hc + (L : Int)) vc ?_
        have hpt : ptAdd (hc, vc) (cDelta .East) (L : Int) = (hc + (L : Int), vc) := by
          simp only [cDelta, ptAdd, Prod.mk.injEq]
          exact ⟨by omega, by omega⟩
        rw [hpt] at hrest
        exact hrest
    · simp only [selfLoop]
      split
      · rfl
      · refine ih hc (vc - (L : Int)) ?_
        have hpt : ptAdd (hc, vc) (cDelta .South) (L : Int) = (hc, vc - (L : Int)) := by
          simp only [cDelta, ptAdd, Prod.mk.injEq]
          exact ⟨by omega, by omega⟩
        rw [hpt] at hrest
        exact hrest
    · simp only [selfLoop]
      split
      · rfl
      · refine ih (hc - (L : Int)) vc ?_
        have hpt : ptAdd (hc, vc) (cDelta .West) (L : Int) = (hc - (L : Int), vc) := by
          simp only [cDelta, ptAdd, Prod.mk.injEq]
          exact ⟨by omega, by omega⟩
        rw [hpt] at hrest
        exact hrest

/-- Soundness of the counter loop on bodies with positive segment
lengths: an intersection report means the backward walk really passes
through the head's position. -/
theorem selfLoop_sound :
    ∀ (segs : List Segment) (hc vc : Int),
      (∀ t ∈ segs, 1 ≤ t.length) → selfLoop segs hc vc = true →
      ((0, 0) : Int × Int) ∈ walkSteps cDelta (hc, vc) segs := by
  intro segs
  induction segs with
  | nil => intro hc vc _ hl; simp [selfLoop] at hl
  | cons seg rest ih =>
    intro hc vc hall hl
    obtain ⟨d, L⟩ := seg
    have hL : 1 ≤ L := hall ⟨d, L⟩ (List.mem_cons_self _ _)
    have hall' : ∀ t ∈ rest, 1 ≤ t.length := fun t ht => hall t (List.mem_cons_of_mem _ ht)
    simp only [walkSteps, List.mem_append]
    cases d
    · simp only [selfLoop] at hl
      split at hl
      · next htrig =>
          left
          rw [mem_runSteps_iff]
          obtain ⟨h0, hdis⟩ := htrig
          refine ⟨(-vc).toNat - 1, by omega, ?_⟩
          simp only [cDelta, ptAdd, Prod.mk.injEq]
          exact ⟨by omega, by omega⟩
      · next htrig =>
          right
          have hpt : ptAdd (hc, vc) (cDelta .North) (L : Int) = (hc, vc + (L : Int)) := by
            simp only [cDelta, ptAdd, Prod.mk.injEq]
            exact ⟨by omega, by omega⟩
          rw [hpt]
          exact ih hc (vc + (L : Int)) hall' hl
    · simp only [selfLoop] at hl
      split at hl
      · next htrig =>
          left
          rw [mem_runSteps_iff]
          obtain ⟨h0, hdis⟩ := htrig
          refine ⟨(-hc).toNat - 1, by omega, ?_⟩
          simp only [cDelta, ptAdd, Prod.mk.injEq]
          exact ⟨by omega, by omega⟩
      · next htrig =>
          right
          have hpt : ptAdd (hc, vc) (cDelta .East) (L : Int) = (hc + (L : Int), vc) := by
            simp only [cDelta, ptAdd, Prod.mk.injEq]
            exact ⟨by omega, by omega⟩
          rw [hpt]
          exact ih (hc + (L : Int)) vc hall' hl
    · simp only [selfLoop] at hl
      split at hl
      · next htrig =>
          left
          rw [mem_runSteps_iff]
          obtain ⟨h0, hdis⟩ := htrig
          refine ⟨vc.toNat - 1, by omega, ?_⟩
          simp only [cDelta, ptAdd, Prod.mk.injEq]
          exact ⟨by omega, by omega⟩
      · next htrig =>
          right
          have hpt : ptAdd (hc, vc) (cDelta .South) (L : Int) = (hc, vc - (L : Int)) := by
            simp only [cDelta, ptAdd, Prod.mk.injEq]
            exact ⟨by omega, by omega⟩
          rw [hpt]
          exact ih hc (vc - (L : Int)) hall' hl
    · simp only [selfLoop] at hl
      split at hl
      · next htrig =>
          left
          rw [mem_runSteps_iff]
          obtain ⟨h0, hdis⟩ := htrig
          refine ⟨hc.toNat - 1, by omega, ?_⟩
          simp only [cDelta, ptAdd, Prod.mk.injEq]
          exact ⟨by omega, by omega⟩
      · next htrig =>
          right
          have hpt : ptAdd (hc, vc) (cDelta .West) (L : Int) = (hc - (L : Int), vc) := by
            simp only [cDelta, ptAdd, Prod.mk.injEq]
            exact ⟨by omega, by omega⟩
          rw [hpt]
          exact ih (hc - (L : Int)) vc hall' hl

theorem runCells_succ (c d : Int × Int) (n : Nat) :
    runCells c d (n + 1) = runCells c d n ++ [ptAdd c d (n : Int)] := by
  simp [runCells, List.range_succ]

theorem runSteps_succ (c d : Int × Int) (n : Nat) :
    runSteps c d (n + 1) = runSteps c d n ++ [ptAdd c d ((n : Int) + 1)] := by
  simp [runSteps, List.range_succ]

theorem runCells_concat (c d : Int × Int) (L : Nat) :
    runCells c d L ++ [ptAdd c d (L : Int)] = c :: runSteps c d L := by
  induction L with
  | zero => simp [runCells, runSteps, ptAdd]
  | succ n ihn =>
    have hcast : ((n + 1 : Nat) : Int) = (n : Int) + 1 := by push_cast; rfl
    rw [runCells_succ, runSteps_succ, hcast, ihn, List.cons_append]

/-- The cell walk extended with the endpoint is the start followed by
the step walk: cells are `V₀, …, V_{N-1}` while steps are `V₁, …, V_N`. -/
theorem walkCells_concat_end (dl : Direction → Int × Int) :
    ∀ (segs : List Segment) (c : Int × Int),
      walkCells dl c segs ++ [walkEnd dl c segs] = c :: walkSteps dl c segs := by
  intro segs
  induction segs with
  | nil => intro c; simp [walkCells, walkEnd, walkSteps]
  | cons seg rest ih =>
    intro c
    simp only [walkCells, walkEnd, walkSteps]
    rw [List.append_assoc, ih (ptAdd c (dl seg.direction) (seg.length : Int)),
      List.append_cons, runCells_concat, List.cons_append]

theorem mem_tail_walkCells (dl : Direction → Int × Int) (segs : List Segment)
    (c x : Int × Int) (hx : x ∈ (walkCells dl c segs).tail) :
    x ∈ walkSteps dl c segs := by
  have hb := walkCells_concat_end dl segs c
  cases hc : walkCells dl c segs with
  | nil => rw [hc] at hx; simp at hx
  | cons c0 cs =>
    rw [hc] at hb hx
    simp only [List.tail_cons] at hx
    rw [List.cons_append] at hb
    injection hb with h1 h2
    rw [← h2]
    exact List.mem_append_left _ hx

/-- Reflection of the x-axis: the counters of `has_self_intersection`
count East as positive while the backward walk moves West, so the
counter walk is the x-reflection of the renderer's walk. -/
def reflX (p : Int × Int) : Int × Int := (-p.1, p.2)

theorem oppDelta_eq_reflX_cDelta : ∀ d : Direction, oppDelta d = reflX (cDelta d) := by
  intro d
  cases d <;> rfl

theorem ptAdd_reflX (c d : Int × Int) (n : Int) :
    ptAdd (reflX c) (reflX d) n = reflX (ptAdd c d n) := by
  simp only [ptAdd, reflX, Prod.mk.injEq]
  exact ⟨by ring, trivial⟩

theorem walkSteps_oppDelta (segs : List Segment) :
    ∀ c : Int × Int,
      walkSteps oppDelta (reflX c) segs = (walkSteps cDelta c segs).map reflX := by
  induction segs with
  | nil => intro c; simp [walkSteps]
  | cons seg rest ih =>
    intro c
    simp only [walkSteps, List.map_append]
    congr 1
    · rw [oppDelta_eq_reflX_cDelta, runSteps, runSteps, List.map_map]
      refine List.map_congr_left ?_
      intro a _
      simp only [Function.comp_apply]
      exact ptAdd_reflX c (cDelta seg.direction) _
    · rw [oppDelta_eq_reflX_cDelta, ptAdd_reflX]
      exact ih (ptAdd c (cDelta seg.direction) (seg.length : Int))

theorem mem_reflX_map (l : List (Int × Int)) :
    ((0, 0) : Int × Int) ∈ l.map reflX ↔ ((0, 0) : Int × Int) ∈ l := by
  rw [List.mem_map]
  constructor
  · rintro ⟨y, hy, hEq⟩
    obtain ⟨a, b⟩ := y
    simp only [reflX, Prod.mk.injEq] at hEq
    obtain ⟨h1, h2⟩ := hEq
    have ha : a = 0 := by omega
    rw [ha, h2] at hy
    exact hy
  · intro h0
    exact ⟨(0, 0), h0, rfl⟩

/-- The square test body of the source's `square_self_intersection`. -/
def squareSnake : Snake :=
  ⟨⟨0, 0⟩, [⟨.North, 1⟩, ⟨.East, 1⟩, ⟨.South, 1⟩, ⟨.West, 1⟩], ⟨0, 0⟩, ⟨0, 0, 0, 0⟩, 0, 0⟩

/-- The rectangle test body of `rectangle_self_intersection`. -/
def rectSnake : Snake :=
  ⟨⟨0, 0⟩, [⟨.North, 2⟩, ⟨.East, 1⟩, ⟨.South, 2⟩, ⟨.West, 1⟩], ⟨0, 0⟩, ⟨0, 0, 0, 0⟩, 0, 0⟩

/-- The P-shaped test body of `p_self_intersection`. -/
def pSnake : Snake :=
  ⟨⟨0, 0⟩, [⟨.North, 2⟩, ⟨.East, 1⟩, ⟨.South, 1⟩, ⟨.West, 1⟩], ⟨0, 0⟩, ⟨0, 0, 0, 0⟩, 0, 0⟩

/-- The C-shaped test body of `c_self_intersection`. -/
def cSnake : Snake :=
  ⟨⟨0, 0⟩, [⟨.North, 2⟩, ⟨.East, 1⟩, ⟨.South, 1⟩], ⟨0, 0⟩, ⟨0, 0, 0, 0⟩, 0, 0⟩

/-- C1 (counterexample): on the closed square body the run-length check
reports true, yet the head `(0,0)` does not equal any *other* cell of
the body — the explicit-cell scan (over the cells the renderer paints)
reports false, so the claimed equivalence with the explicit-cell scan
fails. -/
theorem rle_explicit_scan_disagree :
    hasSelfIntersection squareSnake = true ∧
      specExplicitSelfIntersect squareSnake = false := by
  decide

/-- C1 (amended): for bodies with positive segment lengths, the
run-length check returns true iff the backward walk from the head — one
unit step per occupied cell, thus ending one cell *beyond* the tail —
revisits the head position; the check therefore refines the
explicit-cell scan in one direction only (every genuine head-on-body
hit is reported, and additionally the head landing on the cell one step
behind the tail is reported); the four concrete shapes give
true/true/true/false as the source's tests assert. -/
theorem hasSelfIntersection_iff_walk_revisits_head :
    (∀ s : Snake, (∀ t ∈ s.segments, 1 ≤ t.length) →
      (hasSelfIntersection s = true ↔
        ((0, 0) : Int × Int) ∈ walkSteps cDelta (0, 0) s.segments.reverse)) ∧
    (∀ s : Snake, specExplicitSelfIntersect s = true → hasSelfIntersection s = true) ∧
    hasSelfIntersection squareSnake = true ∧
    hasSelfIntersection rectSnake = true ∧
    hasSelfIntersection pSnake = true ∧
    hasSelfIntersection cSnake = false := by
  refine ⟨?_, ?_, by decide, by decide, by decide, by decide⟩
  · intro s hall
    constructor
    · intro h
      exact selfLoop_sound s.segments.reverse 0 0
        (fun t ht => hall t (List.mem_reverse.mp ht)) h
    · intro hm
      exact selfLoop_complete s.segments.reverse 0 0 hm
  · intro s hspec
    rw [specExplicitSelfIntersect, decide_eq_true_eq] at hspec
    have h1 : ((0, 0) : Int × Int) ∈ walkSteps oppDelta (0, 0) s.segments.reverse :=
      mem_tail_walkCells oppDelta s.segments.reverse (0, 0) (0, 0) hspec
    have h2 : walkSteps oppDelta ((0 : Int), (0 : Int)) s.segments.reverse =
        (walkSteps cDelta (0, 0) s.segments.reverse).map reflX := by
      have hw := walkSteps_oppDelta s.segments.reverse (0, 0)
      rwa [show reflX (0, 0) = ((0 : Int), (0 : Int)) from rfl] at hw
    rw [h2, mem_reflX_map] at h1
    rw [hasSelfIntersection]
    exact selfLoop_complete s.segments.reverse 0 0 h1

/-- Witness for C1 (amended) on the square body. -/
theorem hasSelfIntersection_iff_walk_revisits_head_witness :
    hasSelfIntersection squareSnake = true ↔
      ((0, 0) : Int × Int) ∈ walkSteps cDelta (0, 0) squareSnake.segments.reverse :=
  hasSelfIntersection_iff_walk_revisits_head.1 squareSnake (by decide)

theorem ptAdd_zero (c d : Int × Int) : ptAdd c d 0 = c := by
  simp [ptAdd]

theorem ptAdd_ptAdd (c d : Int × Int) (a b : Int) :
    ptAdd (ptAdd c d a) d b = ptAdd c d (a + b) := by
  simp only [ptAdd, Prod.mk.injEq]
  constructor <;> ring

theorem runCells_cons (c d : Int × Int) (L : Nat) :
    runCells c d (L + 1) = c :: runCells (ptAdd c d 1) d L := by
  rw [runCells, List.range_succ_eq_map, List.map_cons, List.map_map]
  congr 1
  · simp [ptAdd]
  · rw [runCells]
    refine List.map_congr_left ?_
    intro a _
    show ptAdd c d ((a + 1 : Nat) : Int) = ptAdd (ptAdd c d 1) d (a : Int)
    rw [ptAdd_ptAdd]
    congr 1
    push_cast
    ring

/-- One backward step undoes the head shift: stepping by the opposite
delta from the shifted position returns to the original position. -/
theorem shift?_oppDelta (p p' : Position) (d : Direction) (h : p.shift? d = some p') :
    ptAdd (posInt p') (oppDelta d) 1 = posInt p := by
  cases d
  · simp only [Position.shift?] at h
    split at h
    · exact absurd h (by simp)
    · next hc =>
        injection h with h'
        subst h'
        simp only [posInt, ptAdd, oppDelta, Prod.mk.injEq]
        constructor <;> omega
  · simp only [Position.shift?] at h
    split at h
    · exact absurd h (by simp)
    · next hc =>
        injection h with h'
        subst h'
        simp only [posInt, ptAdd, oppDelta, Prod.mk.injEq]
        constructor <;> omega
  · simp only [Position.shift?] at h
    split at h
    · exact absurd h (by simp)
    · next hc =>
        injection h with h'
        subst h'
        simp only [posInt, ptAdd, oppDelta, Prod.mk.injEq]
        constructor <;> omega
  · simp only [Position.shift?] at h
    split at h
    · exact absurd h (by simp)
    · next hc =>
        injection h with h'
        subst h'
        simp only [posInt, ptAdd, oppDelta, Prod.mk.injEq]
        constructor <;> omega

/-- A successful `shift_head` prepends the new head cell to the cell
list. -/
theorem cells_shiftHead (s : Snake) (d : Direction) (s1 : Snake)
    (h : shiftHead? s d = some s1) :
    cells s1 = posInt s1.headPos :: cells s := by
  obtain ⟨p, lastSeg, hp, hlast, hhp1, _, _, hbr⟩ := shiftHead?_inv s d s1 h
  have hback : ptAdd (posInt p) (oppDelta d) 1 = posInt s.headPos :=
    shift?_oppDelta s.headPos p d hp
  rcases hbr with ⟨hne, hseg1⟩ | ⟨heq, hseg1⟩
  · rw [cells, cells, hseg1, hhp1, List.reverse_append]
    simp only [List.reverse_cons, List.reverse_nil, List.nil_append,
      List.singleton_append, walkCells]
    rw [show runCells (posInt p) (oppDelta d) 1 = [posInt p] by
      simp [runCells, List.range_succ, ptAdd_zero]]
    rw [show ptAdd (posInt p) (oppDelta d) ((1 : Nat) : Int) =
        posInt s.headPos by rw [← hback]; norm_num]
    rfl
  · have hdecomp := List.dropLast_append_getLast? lastSeg hlast
    rw [cells, cells, hseg1, hhp1, ← hdecomp, List.reverse_append, List.reverse_append]
    simp only [List.reverse_cons, List.reverse_nil, List.nil_append,
      List.singleton_append, walkCells]
    rw [runCells_cons, hback]
    have hend : ptAdd (posInt p) (oppDelta d) ((lastSeg.length + 1 : Nat) : Int) =
        ptAdd (posInt s.headPos) (oppDelta d) ((lastSeg.length : Nat) : Int) := by
      rw [← hback, ptAdd_ptAdd]
      congr 1
      push_cast
      ring
    rw [hend, heq, List.cons_append, List.dropLast_concat]

theorem walkCells_append_zero (dl : Direction → Int × Int) (d : Direction) :
    ∀ (xs : List Segment) (c : Int × Int),
      walkCells dl c (xs ++ [⟨d, 0⟩]) = walkCells dl c xs := by
  intro xs
  induction xs with
  | nil =>
    intro c
    simp [walkCells, runCells]
  | cons x rest ih =>
    intro c
    rw [List.cons_append]
    simp only [walkCells]
    rw [ih]

theorem walkCells_append_ne_nil (dl : Direction → Int × Int) (d : Direction) (L : Nat) :
    ∀ (xs : List Segment) (c : Int × Int),
      walkCells dl c (xs ++ [⟨d, L + 1⟩]) ≠ [] := by
  intro xs
  induction xs with
  | nil =>
    intro c
    simp only [List.nil_append, walkCells]
    simp [runCells, List.range_succ]
  | cons x rest ih =>
    intro c
    rw [List.cons_append]
    simp only [walkCells]
    intro hc
    rcases List.append_eq_nil.mp hc with ⟨_, h2⟩
    exact ih _ h2

theorem walkCells_dropLast (dl : Direction → Int × Int) (d : Direction) (L : Nat) :
    ∀ (xs : List Segment) (c : Int × Int),
      (walkCells dl c (xs ++ [⟨d, L + 1⟩])).dropLast = walkCells dl c (xs ++ [⟨d, L⟩]) := by
  intro xs
  induction xs with
  | nil =>
    intro c
    simp only [List.nil_append, walkCells, List.append_nil]
    rw [runCells_succ]
    simp only [List.dropLast_concat]
  | cons x rest ih =>
    intro c
    rw [List.cons_append, List.cons_append]
    simp only [walkCells]
    rw [List.dropLast_append_of_ne_nil _ (walkCells_append_ne_nil dl d L rest _)]
    rw [ih]

/-- A successful `shift_tail` removes exactly the last (tail) cell from
the cell list. -/
theorem cells_shiftTail (s s2 : Snake) (h : shiftTail? s = some s2) :
    cells s2 = (cells s).dropLast := by
  obtain ⟨firstSeg, rest, hsegs, hfl, hhp, _, _, hbr⟩ := shiftTail?_inv s s2 h
  obtain ⟨fd, fL⟩ := firstSeg
  rcases hbr with ⟨h1, hseg2⟩ | ⟨h2, hseg2⟩
  · have hfL : fL = 1 := by simpa using h1
    subst hfL
    rw [cells, cells, hseg2, hsegs, hhp, List.reverse_cons]
    symm
    rw [show ((1 : Nat) = 0 + 1) from rfl, walkCells_dropLast, walkCells_append_zero]
  · have hfL2 : 2 ≤ fL := by simpa using h2
    obtain ⟨m, rfl⟩ : ∃ m, fL = m + 1 := ⟨fL - 1, by omega⟩
    rw [cells, cells, hseg2, hsegs, hhp, List.reverse_cons, List.reverse_cons]
    simp only [Nat.add_sub_cancel]
    symm
    rw [walkCells_dropLast]

theorem sumLen_append (a b : List Segment) :
    sumLen (a ++ b) = sumLen a + sumLen b := by
  simp [sumLen]

theorem sumLen_shiftHead (s : Snake) (d : Direction) (s1 : Snake)
    (h : shiftHead? s d = some s1) :
    sumLen s1.segments = sumLen s.segments + 1 := by
  obtain ⟨p, lastSeg, hp, hlast, _, _, _, hbr⟩ := shiftHead?_inv s d s1 h
  rcases hbr with ⟨_, hseg⟩ | ⟨_, hseg⟩
  · rw [hseg, sumLen_append]
    simp [sumLen]
  · have hdecomp := List.dropLast_append_getLast? lastSeg hlast
    rw [hseg, sumLen_append, ← hdecomp, List.dropLast_concat, sumLen_append]
    simp only [sumLen, List.map_cons, List.map_nil, List.sum_cons, List.sum_nil]
    omega

theorem sumLen_shiftTail (s s2 : Snake) (h : shiftTail? s = some s2) :
    sumLen s.segments = sumLen s2.segments + 1 := by
  obtain ⟨firstSeg, rest, hsegs, hfl, _, _, _, hbr⟩ := shiftTail?_inv s s2 h
  rcases hbr with ⟨h1, hseg2⟩ | ⟨h2, hseg2⟩
  · rw [hsegs, hseg2]
    simp only [sumLen, List.map_cons, List.sum_cons]
    omega
  · rw [hsegs, hseg2]
    simp only [sumLen, List.map_cons, List.sum_cons]
    omega

/-- C3: in every successful tick, the head cell is prepended; if the new
head equals the previous food position the tail is kept (cell count, the
sum of segment lengths, grows by exactly 1) and the food is re-chosen by
the sampler; otherwise the oldest (tail) cell is dropped, the cell count
is unchanged and the food stays put. -/
theorem update_growth_shrink :
    ∀ (s : Snake) (input : Direction) (o : Nat × Nat) (s' : Snake)
      (curr : Direction) (nh : Position),
      headDirection? s = some curr →
      Position.shift? s.headPos (legalTurn curr input) = some nh →
      updateSnakePosition? s input o = some s' →
      ((nh = s.foodPos →
          sumLen s'.segments = sumLen s.segments + 1 ∧
          cells s' = posInt nh :: cells s ∧
          randomRange? s.area.inner1 o = some s'.foodPos) ∧
       (nh ≠ s.foodPos →
          sumLen s'.segments = sumLen s.segments ∧
          cells s' = (posInt nh :: cells s).dropLast ∧
          s'.foodPos = s.foodPos)) := by
  intro s input o s' curr nh hhd hnh hupd
  obtain ⟨curr', hhd', hmv⟩ := updateSnakePosition?_inv s input o s' hupd
  rw [hhd] at hhd'
  injection hhd' with hc
  subst hc
  obtain ⟨s1, hsh, hbr⟩ := moveSnake?_inv s _ o s' hmv
  obtain ⟨p, lastSeg, hp, hlast, hhp1, hfp1, har1, _⟩ := shiftHead?_inv s _ s1 hsh
  rw [hnh] at hp
  injection hp with hpEq
  subst hpEq
  have hcells1 : cells s1 = posInt s1.headPos :: cells s := cells_shiftHead s _ s1 hsh
  have hsum1 : sumLen s1.segments = sumLen s.segments + 1 := sumLen_shiftHead s _ s1 hsh
  constructor
  · intro heatp
    rcases hbr with ⟨heat, fp, hrr, hs'⟩ | ⟨hneat, hst⟩
    · refine ⟨?_, ?_, ?_⟩
      · rw [hs']
        exact hsum1
      · rw [hs']
        show cells s1 = posInt nh :: cells s
        rw [hcells1, hhp1]
      · rw [hs']
        rw [har1] at hrr
        exact hrr
    · exact absurd (show s1.headPos = s1.foodPos by rw [hhp1, hfp1]; exact heatp) hneat
  · intro hneatp
    rcases hbr with ⟨heat, fp, hrr, hs'⟩ | ⟨hneat, hst⟩
    · have : nh = s.foodPos := by
        rw [← hhp1, ← hfp1]
        exact heat
      exact absurd this hneatp
    · have hsum2 := sumLen_shiftTail s1 s' hst
      have hc2 := cells_shiftTail s1 s' hst
      obtain ⟨_, _, _, _, _, hfp2, _, _⟩ := shiftTail?_inv s1 s' hst
      refine ⟨by omega, ?_, ?_⟩
      · rw [hc2, hcells1, hhp1]
      · rw [hfp2, hfp1]

/-- Witness for C3 at the concrete eating state and a concrete
non-eating state. -/
theorem update_growth_shrink_witness :
    sumLen (⟨⟨2, 1⟩, [⟨.North, 3⟩], ⟨2, 2⟩, ⟨0, 0, 10, 10⟩, 0, 0⟩ : Snake).segments =
      sumLen eatState.segments + 1 := by
  have h := (update_growth_shrink eatState .North (1, 1) eatStateAfter .North ⟨2, 1⟩
    (by decide) (by decide) (by decide)).1 (by decide)
  exact h.1

theorem headDirection?_shiftHead (s : Snake) (d : Direction) (s1 : Snake)
    (h : shiftHead? s d = some s1) : headDirection? s1 = some d := by
  obtain ⟨p, lastSeg, _, _, _, _, _, hbr⟩ := shiftHead?_inv s d s1 h
  rcases hbr with ⟨_, hseg⟩ | ⟨_, hseg⟩ <;>
    rw [headDirection?, hseg, List.getLast?_concat] <;> rfl

theorem headDirection?_shiftTail (s1 s2 : Snake) (h : shiftTail? s1 = some s2)
    (h2 : s2.segments ≠ []) : headDirection? s2 = headDirection? s1 := by
  obtain ⟨⟨fd, fl⟩, rest, hsegs, hfl, _, _, _, hbr⟩ := shiftTail?_inv s1 s2 h
  rcases hbr with ⟨h1, hseg2⟩ | ⟨hge, hseg2⟩
  · rw [headDirection?, headDirection?, hsegs, hseg2]
    rw [hseg2] at h2
    cases rest with
    | nil => exact absurd rfl h2
    | cons r rs => rw [List.getLast?_cons_cons]
  · rw [headDirection?, headDirection?, hsegs, hseg2]
    cases rest with
    | nil => rfl
    | cons r rs => rw [List.getLast?_cons_cons, List.getLast?_cons_cons]

theorem shiftHead?_lengths (s : Snake) (d : Direction) (s1 : Snake)
    (h : shiftHead? s d = some s1) (hl : ∀ t ∈ s.segments, 1 ≤ t.length) :
    ∀ t ∈ s1.segments, 1 ≤ t.length := by
  obtain ⟨p, lastSeg, _, _, _, _, _, hbr⟩ := shiftHead?_inv s d s1 h
  intro t ht
  rcases hbr with ⟨_, hseg⟩ | ⟨_, hseg⟩ <;> rw [hseg] at ht <;>
    rcases List.mem_append.mp ht with hm | hm
  · exact hl t hm
  · simp only [List.mem_singleton] at hm
    rw [hm]
  · exact hl t ((List.dropLast_sublist s.segments).subset hm)
  · simp only [List.mem_singleton] at hm
    rw [hm]
    exact Nat.le_add_left 1 _

theorem shiftHead?_ne_nil (s : Snake) (d : Direction) (s1 : Snake)
    (h : shiftHead? s d = some s1) : s1.segments ≠ [] := by
  obtain ⟨p, lastSeg, _, _, _, _, _, hbr⟩ := shiftHead?_inv s d s1 h
  rcases hbr with ⟨_, hseg⟩ | ⟨_, hseg⟩ <;> rw [hseg] <;> simp

theorem shiftTail?_lengths (s1 s2 : Snake) (h : shiftTail? s1 = some s2)
    (hl : ∀ t ∈ s1.segments, 1 ≤ t.length) :
    ∀ t ∈ s2.segments, 1 ≤ t.length := by
  obtain ⟨⟨fd, fl⟩, rest, hsegs, hfl, _, _, _, hbr⟩ := shiftTail?_inv s1 s2 h
  intro t ht
  rcases hbr with ⟨h1, hseg2⟩ | ⟨hge, hseg2⟩
  · exact hl t (by rw [hsegs]; exact List.mem_cons_of_mem _ (hseg2 ▸ ht))
  · rw [hseg2] at ht
    rcases List.mem_cons.mp ht with hm | hm
    · rw [hm]
      have : 2 ≤ fl := by simpa using hge
      simp only [Segment.length]
      omega
    · exact hl t (by rw [hsegs]; exact List.mem_cons_of_mem _ hm)

theorem sumLen_pos (l : List Segment) (hne : l ≠ [])
    (hl : ∀ t ∈ l, 1 ≤ t.length) : 1 ≤ sumLen l := by
  cases l with
  | nil => exact absurd rfl hne
  | cons a rest =>
    have := hl a (List.mem_cons_self _ _)
    simp only [sumLen, List.map_cons, List.sum_cons]
    omega

theorem ne_nil_of_sumLen_pos (l : List Segment) (h : 1 ≤ sumLen l) : l ≠ [] := by
  intro hc
  rw [hc] at h
  simp [sumLen] at h

/-- C9: a tick preserves the implicit representation invariant — the
segment deque stays non-empty and every run length stays at least 1, so
the `head_direction`/`shift_tail` assertions and unwraps cannot fail on
the next tick. -/
theorem update_preserves_segments_invariant :
    ∀ (s : Snake) (input : Direction) (o : Nat × Nat) (s' : Snake),
      s.segments ≠ [] → (∀ t ∈ s.segments, 1 ≤ t.length) →
      updateSnakePosition? s input o = some s' →
      s'.segments ≠ [] ∧ ∀ t ∈ s'.segments, 1 ≤ t.length := by
  intro s input o s' hne hlen hupd
  obtain ⟨curr, hhd, hmv⟩ := updateSnakePosition?_inv s input o s' hupd
  obtain ⟨s1, hsh, hbr⟩ := moveSnake?_inv s _ o s' hmv
  have hlen1 := shiftHead?_lengths s _ s1 hsh hlen
  have hsum1 := sumLen_shiftHead s _ s1 hsh
  rcases hbr with ⟨_, fp, _, hs'⟩ | ⟨_, hst⟩
  · rw [hs']
    exact ⟨shiftHead?_ne_nil s _ s1 hsh, hlen1⟩
  · have hsum2 := sumLen_shiftTail s1 s' hst
    have hs : 1 ≤ sumLen s.segments := sumLen_pos s.segments hne hlen
    refine ⟨ne_nil_of_sumLen_pos s'.segments (by omega), ?_⟩
    exact shiftTail?_lengths s1 s' hst hlen1

/-- Witness for C9 at the concrete in-interior state. -/
theorem update_preserves_segments_invariant_witness :
    onBorderState.segments ≠ [] ∧ ∀ t ∈ onBorderState.segments, 1 ≤ t.length :=
  update_preserves_segments_invariant nearBorderState .North (0, 0) onBorderState
    (by decide) (by intro t ht; simp only [nearBorderState] at ht; simp at ht; rw [ht])
    (by decide)

/-- C5: a successful tick shifts the head by exactly one unit in the
effective heading, and `head_direction` afterwards reports exactly that
effective heading. -/
theorem update_head_shift_and_direction :
    ∀ (s : Snake) (input : Direction) (o : Nat × Nat) (s' : Snake) (curr : Direction),
      (∀ t ∈ s.segments, 1 ≤ t.length) →
      headDirection? s = some curr →
      updateSnakePosition? s input o = some s' →
      ∃ nh, Position.shift? s.headPos (legalTurn curr input) = some nh ∧
        s'.headPos = nh ∧ headDirection? s' = some (legalTurn curr input) := by
  intro s input o s' curr hlen hhd hupd
  obtain ⟨curr', hhd', hmv⟩ := updateSnakePosition?_inv s input o s' hupd
  rw [hhd] at hhd'
  injection hhd' with hc
  subst hc
  obtain ⟨s1, hsh, hbr⟩ := moveSnake?_inv s _ o s' hmv
  obtain ⟨p, lastSeg, hp, hlast, hhp1, _, _, _⟩ := shiftHead?_inv s _ s1 hsh
  have hhd1 : headDirection? s1 = some (legalTurn curr input) :=
    headDirection?_shiftHead s _ s1 hsh
  have hne : s.segments ≠ [] := by
    intro hc2
    rw [headDirection?, hc2] at hhd
    simp at hhd
  rcases hbr with ⟨_, fp, _, hs'⟩ | ⟨_, hst⟩
  · refine ⟨p, hp, ?_, ?_⟩
    · rw [hs']
      exact hhp1
    · rw [hs']
      exact hhd1
  · obtain ⟨_, _, _, _, hhp2, _, _, _⟩ := shiftTail?_inv s1 s' hst
    have hlen1 := shiftHead?_lengths s _ s1 hsh hlen
    have hsum1 := sumLen_shiftHead s _ s1 hsh
    have hsum2 := sumLen_shiftTail s1 s' hst
    have hs : 1 ≤ sumLen s.segments := sumLen_pos s.segments hne hlen
    have hne2 : s'.segments ≠ [] := ne_nil_of_sumLen_pos s'.segments (by omega)
    refine ⟨p, hp, ?_, ?_⟩
    · rw [hhp2, hhp1]
    · rw [headDirection?_shiftTail s1 s' hst hne2]
      exact hhd1

/-- Witness for C5 at the concrete in-interior state. -/
theorem update_head_shift_and_direction_witness :
    ∃ nh, Position.shift? nearBorderState.headPos (legalTurn .North .North) = some nh ∧
      onBorderState.headPos = nh ∧ headDirection? onBorderState = some (legalTurn .North .North) :=
  update_head_shift_and_direction nearBorderState .North (0, 0) onBorderState .North
    (by intro t ht; simp only [nearBorderState] at ht; simp at ht; rw [ht])
    (by decide) (by decide)

/-- Perpendicularity of headings: neither equal nor opposite. -/
def perpD (d1 d2 : Direction) : Prop := d1 ≠ d2 ∧ d1 ≠ d2.opposite

/-- Consecutive segments carry pairwise perpendicular directions. -/
def pairwisePerp (segs : List Segment) : Prop :=
  List.Chain' perpD (segs.map Segment.direction)

theorem legalTurn_self_or_perp :
    ∀ curr input : Direction,
      legalTurn curr input = curr ∨
        (curr ≠ legalTurn curr input ∧ curr ≠ (legalTurn curr input).opposite) := by
  intro c i
  cases c <;> cases i <;> decide

/-- C10: a tick preserves pairwise perpendicularity of the run-length
segments: the turn filter only ever pushes a segment perpendicular to
the previous head segment, and tail removal never merges or reorders
segments. -/
theorem update_preserves_perpendicularity :
    ∀ (s : Snake) (input : Direction) (o : Nat × Nat) (s' : Snake),
      pairwisePerp s.segments →
      updateSnakePosition? s input o = some s' →
      pairwisePerp s'.segments := by
  intro s input o s' hperp hupd
  obtain ⟨curr, hhd, hmv⟩ := updateSnakePosition?_inv s input o s' hupd
  rw [headDirection?] at hhd
  obtain ⟨lastSeg, hlast, hdir⟩ := Option.map_eq_some'.mp hhd
  obtain ⟨s1, hsh, hbr⟩ := moveSnake?_inv s _ o s' hmv
  obtain ⟨p, lastSeg', hp, hlast', _, _, _, hbr'⟩ := shiftHead?_inv s _ s1 hsh
  rw [hlast] at hlast'
  injection hlast' with hls
  subst hls
  have hperp1 : pairwisePerp s1.segments := by
    rcases hbr' with ⟨hne, hseg⟩ | ⟨heq, hseg⟩
    · rw [pairwisePerp, hseg, List.map_append, List.chain'_append]
      refine ⟨hperp, ?_, ?_⟩
      · simp
      · intro x hx y hy
        simp only [List.getLast?_map, hlast, Option.map_some', Option.mem_def,
          Option.some.injEq] at hx
        simp only [List.map_cons, List.map_nil, List.head?_cons, Option.mem_def,
          Option.some.injEq] at hy
        rcases legalTurn_self_or_perp curr input with heq2 | hperp2
        · exact absurd (hdir.trans heq2.symm) hne
        · rw [← hx, ← hy, hdir]
          exact hperp2
    · rw [pairwisePerp, hseg, List.map_append]
      have hdecomp := List.dropLast_append_getLast? lastSeg hlast
      have hmap : s.segments.map Segment.direction =
          (s.segments.dropLast).map Segment.direction ++ [lastSeg.direction] := by
        conv_lhs => rw [← hdecomp]
        rw [List.map_append]
        rfl
      rw [pairwisePerp, hmap] at hperp
      simp only [List.map_cons, List.map_nil]
      rw [← heq]
      exact hperp
  rcases hbr with ⟨_, fp, _, hs'⟩ | ⟨_, hst⟩
  · rw [hs']
    exact hperp1
  · obtain ⟨⟨fd, fl⟩, rest, hsegs, _, _, _, _, hbr2⟩ := shiftTail?_inv s1 s' hst
    rcases hbr2 with ⟨_, hseg2⟩ | ⟨_, hseg2⟩
    · rw [pairwisePerp, hseg2]
      have hp1 := hperp1
      rw [pairwisePerp, hsegs, List.map_cons] at hp1
      exact hp1.tail
    · rw [pairwisePerp, hseg2, List.map_cons]
      have hp1 := hperp1
      rw [pairwisePerp, hsegs, List.map_cons] at hp1
      exact hp1

/-- Witness for C10 at the concrete in-interior state. -/
theorem update_preserves_perpendicularity_witness :
    pairwisePerp onBorderState.segments :=
  update_preserves_perpendicularity nearBorderState .North (0, 0) onBorderState
    (by simp [pairwisePerp, nearBorderState]) (by decide)
